import Mathlib

/-!
Verification of the Dragonfly2 scheduler resource layer: the task registry
(`scheduler/resource/task_manager.go`), its GC sweep, the task peer
scheduling graph, peer priority resolution, and the piece downloader's
digest-verified ranged transfer.

The registry and `RunGC` are translated from `task_manager.go`.  The Task
FSM, the peer DAG, `GetPriority` and `DownloadPiece` are not part of the
provided sources (only their tests are), so they are modelled from the
specification, as marked on each definition.
-/

namespace Dragonfly

/-- Task FSM states, from the spec (section 4.1):
`Pending → Running → Succeeded | Failed`, plus `Seeding`, plus the terminal
`Leave` state reachable from any non-terminal state. -/
inductive TaskState where
  | pending
  | running
  | seeding
  | succeeded
  | failed
  | leave
deriving DecidableEq, Repr

/-- Error returned by an FSM transition that is not legal from the current
state (`StateTransitionError`), identifying the current state. -/
structure StateTransitionError where
  current : TaskState
deriving DecidableEq, Repr

/-- Modelled from the spec: firing the `Leave` event on the task FSM
(section 4.1: "any non-terminal state may transition to `Leave` and `Leave`
is terminal"); the transition fails with a `StateTransitionError` exactly
when the task is already in `Leave`.  The concrete FSM code is not among
the provided sources. -/
def taskEventLeave : TaskState → Except StateTransitionError TaskState
  | .leave => .error ⟨.leave⟩
  | _ => .ok .leave

/-- Errors of the peer-graph mutation operations: `cycle` is the
`CycleError` of the spec, `vertexNotFound` the precondition failure when an
edge endpoint is not a node of the graph. -/
inductive GraphError where
  | cycle
  | vertexNotFound
deriving DecidableEq, Repr

/-- Modelled from the spec: the peer scheduling graph of one task
(section 3): nodes are peer IDs, directed edges parent → child.  The
concrete DAG implementation is not among the provided sources. -/
structure DAG where
  vertices : List String
  edges : List (String × String)
deriving DecidableEq, Repr

/-- One step of the breadth-first expansion used by the reachability
check: add to `S` every target of an edge whose source is already in `S`. -/
def expandStep (E : List (String × String)) (S : Finset String) : Finset String :=
  S ∪ ((E.filter (fun e => decide (e.1 ∈ S))).map Prod.snd).toFinset

/-- `n`-fold iteration of the breadth-first expansion. -/
def iterExpand (E : List (String × String)) : Nat → Finset String → Finset String
  | 0, S => S
  | n + 1, S => expandStep E (iterExpand E n S)

/-- Modelled from the spec: the reachability check of `AddPeerEdge`
(section 4.3, "a reachability check from `child` to `parent` ...
depth/breadth-first traversal bounded by node count"): `dst` is reachable
from `src` along the directed edges `E`.  The traversal saturates after at
most `E.length` expansion rounds. -/
def reachable (E : List (String × String)) (src dst : String) : Bool :=
  decide (dst ∈ iterExpand E (E.length + 1) {src})

/-- The edge relation of an edge list. -/
def EdgeRel (E : List (String × String)) (a b : String) : Prop := (a, b) ∈ E

/-- Semantic reachability: the reflexive-transitive closure of the edge
relation. -/
def Reach (E : List (String × String)) : String → String → Prop :=
  Relation.ReflTransGen (EdgeRel E)

/-- Modelled from the spec: `StorePeer` on the graph side — idempotently
add a node (section 4.3). -/
def storePeer (g : DAG) (v : String) : DAG :=
  if v ∈ g.vertices then g else { g with vertices := v :: g.vertices }

/-- Modelled from the spec: `AddPeerEdge(parent, child)` (section 4.3).
Self-edges are rejected unconditionally with a `CycleError`; both
endpoints must be nodes of the graph; if `parent` is reachable from
`child` the insertion would close a cycle and is rejected with a
`CycleError`; otherwise the edge is inserted. -/
def addPeerEdge (g : DAG) (parent child : String) : Except GraphError DAG :=
  if parent = child then .error .cycle
  else if parent ∈ g.vertices ∧ child ∈ g.vertices then
    if reachable g.edges child parent then .error .cycle
    else .ok { g with edges := (parent, child) :: g.edges }
  else .error .vertexNotFound

/-- A graph mutation issued by the scheduling logic: register a peer node,
or try to add a parent → child edge (failed insertions leave the graph
unchanged, as in the source where the error return carries no mutation). -/
inductive GraphOp where
  | store (v : String)
  | addEdge (parent child : String)
deriving DecidableEq, Repr

/-- Apply one graph mutation; a rejected `addPeerEdge` leaves the graph
unchanged. -/
def applyGraphOp (g : DAG) : GraphOp → DAG
  | .store v => storePeer g v
  | .addEdge p c =>
    match addPeerEdge g p c with
    | .ok g' => g'
    | .error _ => g

/-- The empty peer graph a fresh task starts from. -/
def emptyDAG : DAG := ⟨[], []⟩

/-- The graph obtained by running a sequence of mutations from the empty
graph. -/
def runGraph (ops : List GraphOp) : DAG := ops.foldl applyGraphOp emptyDAG

/-! ### Acyclicity and topological rank: definitions -/

/-- An edge list is acyclic when no edge closes a path back to its own
source; since `Reach` is reflexive this in particular excludes
self-edges. -/
def Acyclic (E : List (String × String)) : Prop :=
  ∀ a b, (a, b) ∈ E → ¬ Reach E b a

/-- The nodes mentioned by an edge list. -/
def edgeNodes (E : List (String × String)) : Finset String :=
  (E.map Prod.fst ++ E.map Prod.snd).toFinset

/-- Topological rank of a node: the number of graph nodes from which it is
reachable.  On an acyclic edge list this rank strictly increases along
every edge, so it is a topological ordering of the graph. -/
def rankOf (E : List (String × String)) (v : String) : Nat :=
  ((edgeNodes E).filter (fun u => reachable E u v = true)).card

/-- The invariant maintained by the graph operations: the edge list is
acyclic and every edge endpoint is a registered node. -/
def GInv (g : DAG) : Prop :=
  Acyclic g.edges ∧ ∀ e ∈ g.edges, e.1 ∈ g.vertices ∧ e.2 ∈ g.vertices

/-! ### The task entity and the registry (`scheduler/resource/task_manager.go`) -/

/-- The task entity as the registry and its GC see it: its ID, its FSM
state, and its peer scheduling graph.  The remaining attributes of the
source's `Task` (URL, type, content length, piece metadata, back-to-source
counters, logger) play no part in the registry or GC logic. -/
structure Task where
  id : String
  state : TaskState
  dag : DAG
deriving DecidableEq, Repr

/-- `Task.PeerCount`: the node count of the task's peer graph. -/
def Task.peerCount (t : Task) : Nat := t.dag.vertices.length

/-- A value held in the raw `sync.Map`: Go's map stores `any`, so besides
`*Task` pointers it could in principle hold a value of any other type
(`other`). -/
inductive GoValue where
  | task (t : Task)
  | other
deriving DecidableEq, Repr

/-- The raw `sync.Map` underlying the task manager, as an association list
keyed by task ID. -/
abbrev Registry := List (String × GoValue)

/-- `sync.Map.Load`. -/
def rawLoad (reg : Registry) (key : String) : Option GoValue :=
  (reg.find? (fun p => p.1 == key)).map Prod.snd

/-- `sync.Map.Store`: replace the binding for the key, or append one. -/
def rawStore : Registry → String → GoValue → Registry
  | [], key, v => [(key, v)]
  | p :: rest, key, v =>
    if p.1 = key then (key, v) :: rest else p :: rawStore rest key v

/-- `sync.Map.Delete`: remove the binding for the key. -/
def rawDelete (reg : Registry) (key : String) : Registry :=
  reg.filter (fun p => p.1 != key)

/-- A Go runtime panic observed by the shallow embedding: a failed
unchecked type assertion, or a method call on a nil `*Task`. -/
inductive GoPanic where
  | invalidTypeAssertion
  | nilTaskDereference
deriving DecidableEq, Repr

namespace TaskManager

/-- `taskManager.Load`: look the key up in the raw map; a hit is returned
through the unchecked type assertion `rawTask.(*Task)`, which panics if
the stored value is not a `*Task`. -/
def Load (reg : Registry) (key : String) : Except GoPanic (Option Task) :=
  match rawLoad reg key with
  | none => .ok none
  | some (.task t) => .ok (some t)
  | some .other => .error .invalidTypeAssertion

/-- `taskManager.Store`: store the task under its own ID. -/
def Store (reg : Registry) (task : Task) : Registry :=
  rawStore reg task.id (.task task)

/-- `taskManager.LoadOrStore`: returns the existing task for `task.ID` with
`loaded = true`, otherwise stores `task` and returns it with
`loaded = false`; the result goes through the unchecked type assertion
`rawTask.(*Task)`. -/
def LoadOrStore (reg : Registry) (task : Task) :
    Except GoPanic (Task × Bool × Registry) :=
  match rawLoad reg task.id with
  | some (.task u) => .ok (u, true, reg)
  | some .other => .error .invalidTypeAssertion
  | none => .ok (task, false, rawStore reg task.id (.task task))

/-- `taskManager.Delete`. -/
def Delete (reg : Registry) (key : String) : Registry :=
  rawDelete reg key

end TaskManager

/-- Outcome of one visit of `RunGC`'s range callback on an entry's value. -/
inductive GCAction where
  | keep (v : GoValue)
  | deleteID (id : String)
deriving DecidableEq, Repr

/-- The body of the `Range` callback of `taskManager.RunGC`, on one stored
value.  A non-`*Task` value fails the checked assertion and the error
branch then calls `task.Log.Error` on the nil `task` pointer — a nil
dereference panic.  A task already in `Leave` is deleted via
`t.Delete(task.ID)`.  Otherwise a task with peer count zero has the
`Leave` event fired on its FSM; a transition error is logged and the task
kept.  Every branch asks `Range` to continue (`return true`). -/
def gcVisit (value : GoValue) : Except GoPanic (GCAction × Bool) :=
  match value with
  | .other => .error .nilTaskDereference
  | .task task =>
    if task.state = .leave then .ok (.deleteID task.id, true)
    else if task.peerCount = 0 then
      match taskEventLeave task.state with
      | .error _ => .ok (.keep (.task task), true)
      | .ok s' => .ok (.keep (.task { task with state := s' }), true)
    else .ok (.keep (.task task), true)

/-- `sync.Map.Range` as driven by `RunGC`'s callback: entries are visited
in order; a `deleteID` action removes that ID from the map (the visited
entry and any remaining entry under that ID); iteration stops early only
if the callback returns `false`, which `RunGC`'s callback never does.
Recursion is driven by a fuel bound on the registry length — each visit
consumes at least the visited entry, so `reg.length` fuel always
suffices. -/
def rangeGCAux : Nat → Registry → Except GoPanic Registry
  | _, [] => .ok []
  | 0, _ :: _ => .ok []
  | fuel + 1, (k, v) :: rest =>
    match gcVisit v with
    | .error e => .error e
    | .ok (.keep v', cont) =>
      if cont then
        match rangeGCAux fuel rest with
        | .error e => .error e
        | .ok rest' => .ok ((k, v') :: rest')
      else .ok ((k, v') :: rest)
    | .ok (.deleteID id, cont) =>
      let cur : Registry := if k = id then [] else [(k, v)]
      if cont then
        match rangeGCAux fuel (rawDelete rest id) with
        | .error e => .error e
        | .ok rest' => .ok (cur ++ rest')
      else .ok (cur ++ rawDelete rest id)

/-- The full range sweep. -/
def rangeGC (reg : Registry) : Except GoPanic Registry :=
  rangeGCAux reg.length reg

/-- `taskManager.RunGC`: sweep the map with the range callback and then
`return nil` — the Go `error` result is modelled as `Option Unit` and is
`none` (nil) on every completed sweep. -/
def TaskManager.RunGC (reg : Registry) : Except GoPanic (Registry × Option Unit) :=
  match rangeGC reg with
  | .error e => .error e
  | .ok reg' => .ok (reg', none)

/-- Per-entry summary of one GC pass: a `Leave` task's entry is removed, an
empty non-`Leave` task transitions to `Leave` and is kept, everything else
is kept unchanged.  (The `other` case is never consulted on a well-formed
registry, where the sweep panics instead.) -/
def gcStep : String × GoValue → Option (String × GoValue)
  | (k, .other) => some (k, .other)
  | (k, .task t) =>
    if t.state = .leave then none
    else if t.peerCount = 0 then some (k, .task { t with state := .leave })
    else some (k, .task t)

/-- Well-formedness of an entry reached through the typed interface: the
value is a `*Task` stored under its own ID. -/
def entryOk : String × GoValue → Bool
  | (k, .task t) => k == t.id
  | (_, .other) => false

/-- Well-formedness of the registry: keys are unique (a `sync.Map` holds
one value per key) and every entry holds a task keyed by its ID. -/
def wf (reg : Registry) : Prop :=
  (reg.map Prod.fst).Nodup ∧ ∀ p ∈ reg, entryOk p = true

instance wfDecidable (reg : Registry) : Decidable (wf reg) :=
  inferInstanceAs
    (Decidable ((reg.map Prod.fst).Nodup ∧ ∀ p ∈ reg, entryOk p = true))

/-- A mutation of the registry through the typed `TaskManager` interface;
`loadOrStore`'s state effect stores only when the key is absent. -/
inductive RegistryOp where
  | store (t : Task)
  | loadOrStore (t : Task)
  | delete (id : String)
deriving DecidableEq, Repr

/-- State effect of one typed operation. -/
def applyRegistryOp (reg : Registry) : RegistryOp → Registry
  | .store t => TaskManager.Store reg t
  | .loadOrStore t =>
    match TaskManager.LoadOrStore reg t with
    | .ok (_, _, reg') => reg'
    | .error _ => reg
  | .delete key => TaskManager.Delete reg key

/-- The registry produced by a sequence of typed operations from the empty
map a fresh `taskManager` starts with. -/
def applyRegistryOps (ops : List RegistryOp) : Registry :=
  ops.foldl applyRegistryOp []

/-! ### Peer priority resolution (spec section 4.4) -/

/-- A URL-regex priority override of an application: `(URLRegex, Priority)`.
Priority levels are numbers; level 0 (`Priority_LEVEL0`) is the lowest. -/
structure URLPriority where
  regex : String
  value : Nat
deriving DecidableEq, Repr

/-- An application's priority configuration: a default priority value and
an ordered list of URL-regex overrides. -/
structure ApplicationPriority where
  value : Nat
  urls : List URLPriority
deriving DecidableEq, Repr

/-- An application entry of the configuration collaborator; `priority` is
optional (the proto field may be absent). -/
structure Application where
  name : String
  priority : Option ApplicationPriority
deriving DecidableEq, Repr

/-- The lowest priority level, `Priority_LEVEL0`. -/
def lowestPriority : Nat := 0

/-- Modelled from the spec: `Peer.GetPriority(dynconfig)` (section 4.4).
`matches regex url` abstracts the external regular-expression engine;
`apps` is the result of the `GetApplications` lookup, `Except`-valued
because the lookup can fail.  Resolution: a failed lookup, a missing
application, or a missing priority degrade to the lowest level; the first
URL-regex override (in configured list order) matching the task URL wins
over the application's default priority.  The concrete `GetPriority` code
is not among the provided sources; its unit test pins these cases. -/
def getPriority (matchesRE : String → String → Bool) (peerApp taskURL : String)
    (apps : Except Unit (List Application)) : Nat :=
  match apps with
  | .error _ => lowestPriority
  | .ok l =>
    match l.find? (fun a => a.name == peerApp) with
    | none => lowestPriority
    | some a =>
      match a.priority with
      | none => lowestPriority
      | some pr =>
        match pr.urls.find? (fun u => matchesRE u.regex taskURL) with
        | some u => u.value
        | none => pr.value

/-! ### MD5 (`crypto/md5` as used by the piece digest) -/

/-- Reduce modulo 2^32: 32-bit machine arithmetic on `Nat`. -/
def m32 (x : Nat) : Nat := x % 4294967296

/-- 32-bit left rotation. -/
def rotl32 (x s : Nat) : Nat := m32 (x * 2 ^ s) + x / 2 ^ (32 - s)

/-- Bitwise complement within 32 bits. -/
def not32 (x : Nat) : Nat := Nat.xor x 4294967295

/-- The MD5 sine-derived round constants `K[0..63]`. -/
def md5K : List Nat := [
  3614090360, 3905402710, 606105819, 3250441966, 4118548399, 1200080426, 2821735955, 4249261313,
  1770035416, 2336552879, 4294925233, 2304563134, 1804603682, 4254626195, 2792965006, 1236535329,
  4129170786, 3225465664, 643717713, 3921069994, 3593408605, 38016083, 3634488961, 3889429448,
  568446438, 3275163606, 4107603335, 1163531501, 2850285829, 4243563512, 1735328473, 2368359562,
  4294588738, 2272392833, 1839030562, 4259657740, 2763975236, 1272893353, 4139469664, 3200236656,
  681279174, 3936430074, 3572445317, 76029189, 3654602809, 3873151461, 530742520, 3299628645,
  4096336452, 1126891415, 2878612391, 4237533241, 1700485571, 2399980690, 4293915773, 2240044497,
  1873313359, 4264355552, 2734768916, 1309151649, 4149444226, 3174756917, 718787259, 3951481745]

/-- The MD5 per-round left-rotation amounts `s[0..63]`. -/
def md5S : List Nat := [
  7, 12, 17, 22, 7, 12, 17, 22, 7, 12, 17, 22, 7, 12, 17, 22,
  5, 9, 14, 20, 5, 9, 14, 20, 5, 9, 14, 20, 5, 9, 14, 20,
  4, 11, 16, 23, 4, 11, 16, 23, 4, 11, 16, 23, 4, 11, 16, 23,
  6, 10, 15, 21, 6, 10, 15, 21, 6, 10, 15, 21, 6, 10, 15, 21]

/-- One MD5 round on the state `(a, b, c, d)` with the 16 message words
`M` of the current block. -/
def md5Round (M : List Nat) (st : Nat × Nat × Nat × Nat) (i : Nat) :
    Nat × Nat × Nat × Nat :=
  let (a, b, c, d) := st
  let fg : Nat × Nat :=
    if i < 16 then (Nat.lor (Nat.land b c) (Nat.land (not32 b) d), i)
    else if i < 32 then (Nat.lor (Nat.land d b) (Nat.land (not32 d) c), (5 * i + 1) % 16)
    else if i < 48 then (Nat.xor b (Nat.xor c d), (3 * i + 5) % 16)
    else (Nat.xor c (Nat.lor b (not32 d)), (7 * i) % 16)
  let tmp := m32 (a + fg.1 + md5K.getD i 0 + M.getD fg.2 0)
  (d, m32 (b + rotl32 tmp (md5S.getD i 0)), b, c)

/-- Little-endian decomposition of `x` into `n` bytes. -/
def leBytes : Nat → Nat → List Nat
  | 0, _ => []
  | n + 1, x => (x % 256) :: leBytes n (x / 256)

/-- Group a byte list into little-endian 32-bit words. -/
def leWords : List Nat → List Nat
  | b0 :: b1 :: b2 :: b3 :: rest =>
    (b0 + 256 * b1 + 65536 * b2 + 16777216 * b3) :: leWords rest
  | _ => []

/-- Split a byte list into 64-byte blocks; fuel-driven structural
recursion (each step consumes at least one byte, so `l.length` fuel
suffices). -/
def chunks64Aux : Nat → List Nat → List (List Nat)
  | _, [] => []
  | 0, _ :: _ => []
  | fuel + 1, l => l.take 64 :: chunks64Aux fuel (l.drop 64)

/-- Split a byte list into 64-byte blocks. -/
def chunks64 (l : List Nat) : List (List Nat) := chunks64Aux l.length l

/-- Process one 64-byte block: 64 rounds, then add into the running
state. -/
def md5Block (st : Nat × Nat × Nat × Nat) (block : List Nat) :
    Nat × Nat × Nat × Nat :=
  let M := leWords block
  let r := (List.range 64).foldl (md5Round M) st
  (m32 (st.1 + r.1), m32 (st.2.1 + r.2.1), m32 (st.2.2.1 + r.2.2.1),
    m32 (st.2.2.2 + r.2.2.2))

/-- MD5 padding: a `0x80` byte, zeros up to 56 mod 64, then the bit length
as a little-endian 64-bit integer. -/
def md5Pad (msg : List Nat) : List Nat :=
  msg ++ 128 :: List.replicate ((119 - msg.length % 64) % 64) 0
    ++ leBytes 8 (8 * msg.length)

/-- The 16-byte MD5 digest of a byte list. -/
def md5Bytes (msg : List Nat) : List Nat :=
  let st := (chunks64 (md5Pad msg)).foldl md5Block
    (1732584193, 4023233417, 2562383102, 271733878)
  leBytes 4 st.1 ++ leBytes 4 st.2.1 ++ leBytes 4 st.2.2.1 ++ leBytes 4 st.2.2.2

/-- A lowercase hexadecimal digit. -/
def hexDigit (n : Nat) : Char :=
  if n < 10 then Char.ofNat (48 + n) else Char.ofNat (87 + n)

/-- Lowercase-hex encoding of a byte list. -/
def bytesToHex (l : List Nat) : String :=
  String.mk (l.foldr (fun b acc => hexDigit (b / 16) :: hexDigit (b % 16) :: acc) [])

/-- The piece digest as the downloader computes it: the lowercase-hex
encoding of the (first 16 bytes of the) MD5 hash of the body — MD5 sums
are exactly 16 bytes, so the `[:16]` truncation is the whole sum. -/
def md5Hex (msg : List Nat) : String := bytesToHex (md5Bytes msg)

/-! ### Piece downloader (spec sections 4.7, 6) -/

/-- The fields of a `DownloadPieceRequest` that determine the wire request
and the verification behaviour: task ID, whether to verify the digest, the
piece's byte range, and the expected digest.  The destination address and
the timeout budget are abstracted into the server function below. -/
structure DownloadPieceRequest where
  taskID : String
  calcDigest : Bool
  rangeStart : Nat
  rangeSize : Nat
  pieceMd5 : String
deriving DecidableEq, Repr

/-- The HTTP GET request the downloader issues: the sharded download path
and the inclusive byte-range header. -/
structure HTTPRequest where
  path : String
  rangeHeader : String
deriving DecidableEq, Repr

/-- An HTTP response: status code and body bytes. -/
structure HTTPResponse where
  status : Nat
  body : List Nat
deriving DecidableEq, Repr

/-- Modelled from the spec: request construction (section 4.7): GET to
`/download/<taskID[0:3]>/<taskID>` with header
`Range: bytes=<start>-<start+size-1>` (inclusive end). -/
def buildPieceRequest (r : DownloadPieceRequest) : HTTPRequest :=
  { path := "/download/" ++ r.taskID.take 3 ++ "/" ++ r.taskID,
    rangeHeader := "bytes=" ++ toString r.rangeStart ++ "-"
      ++ toString (r.rangeStart + r.rangeSize - 1) }

/-- `TransportError`: a non-success HTTP status observed by the
downloader, carrying the status. -/
structure TransportError where
  status : Nat
deriving DecidableEq, Repr

/-- `DigestMismatchError`: the fully-consumed body hashed to something
other than the expected digest. -/
inductive DigestError where
  | mismatch
deriving DecidableEq, Repr

/-- The digest-accumulating reader wrapped around the response body
(spec section 9, "digest-verifying stream wrapper"): bytes are forwarded
immediately while the hash accumulates over what was consumed; the final
comparison happens only when the underlying stream is exhausted.
`consumed` are the bytes already delivered to the caller, `pending` the
bytes still to be read. -/
structure DigestReader where
  expected : String
  verify : Bool
  consumed : List Nat
  pending : List Nat
deriving DecidableEq, Repr

/-- One read from the digest reader: while bytes remain, forward the next
byte; at end-of-data, a verifying reader compares the accumulated digest
with the expected one and fails the final read on mismatch (`.ok none` is
a clean EOF — the only way the stream ever reports success). -/
def readOne (r : DigestReader) :
    Except DigestError (Option (Nat × DigestReader)) :=
  match r.pending with
  | b :: rest =>
    .ok (some (b, { r with consumed := r.consumed ++ [b], pending := rest }))
  | [] =>
    if r.verify then
      if md5Hex r.consumed = r.expected then .ok none
      else .error .mismatch
    else .ok none

/-- Drain loop: deliver the pending bytes, then report the outcome of the
final read (`none` for a clean EOF, `some e` for a digest failure). -/
def readAllAux (expected : String) (verify : Bool) :
    List Nat → List Nat → List Nat × Option DigestError
  | consumed, [] =>
    ([], if verify then
      (if md5Hex consumed = expected then none else some .mismatch)
    else none)
  | consumed, b :: rest =>
    let r := readAllAux expected verify (consumed ++ [b]) rest
    (b :: r.1, r.2)

/-- Reading the stream to completion: the bytes delivered and the error,
if any, observed on the final read. -/
def readAll (r : DigestReader) : List Nat × Option DigestError :=
  readAllAux r.expected r.verify r.consumed r.pending

/-- Modelled from the spec: `DownloadPiece` (section 4.7): build the
ranged GET, send it (the remote peer is abstracted as a function from
requests to responses), require a success status (`200` or `206`,
section 6), and wrap the body in the digest reader — verification enabled
exactly when `CalcDigest` is set. -/
def downloadPiece (server : HTTPRequest → HTTPResponse)
    (r : DownloadPieceRequest) : Except TransportError DigestReader :=
  let resp := server (buildPieceRequest r)
  if resp.status = 200 ∨ resp.status = 206 then
    .ok { expected := r.pieceMd5, verify := r.calcDigest,
          consumed := [], pending := resp.body }
  else .error ⟨resp.status⟩

/-! ### Scenario harnesses and concrete fixtures -/

/-- A linearization of N concurrent `LoadOrStore` calls sharing the map:
Go's `sync.Map.LoadOrStore` is one atomic compare-and-swap-style
operation, so every concurrent execution of the calls is equivalent to
running them in some order; the (universally quantified) list order of
`ts` is that order.  Collects each call's `(task, loaded)` result and the
final registry. -/
def loadOrStoreAll (reg : Registry) :
    List Task → Except GoPanic (List (Task × Bool) × Registry)
  | [] => .ok ([], reg)
  | t :: rest =>
    match TaskManager.LoadOrStore reg t with
    | .error e => .error e
    | .ok (u, loaded, reg') =>
      match loadOrStoreAll reg' rest with
      | .error e => .error e
      | .ok (results, regF) => .ok ((u, loaded) :: results, regF)

/-- Number of registry entries stored under a key. -/
def countKey (reg : Registry) (key : String) : Nat :=
  (reg.filter (fun p => p.1 == key)).length

/-- A one-node peer graph. -/
def onePeerDAG : DAG := ⟨["p"], []⟩

/-- A task already in `Leave` whose peer graph still holds one peer. -/
def leaveTaskWithPeer : Task := ⟨"t", .leave, onePeerDAG⟩

/-- A registry with one fully-reclaimed (`Leave`) task and one running
task with zero peers. -/
def gcWitnessReg : Registry :=
  [("a", .task ⟨"a", .leave, emptyDAG⟩), ("b", .task ⟨"b", .running, emptyDAG⟩)]

/-- Graph mutations building a two-node graph with the edge a → b. -/
def cycleOps : List GraphOp := [.store "a", .store "b", .addEdge "a" "b"]

/-- A concrete registry and tasks for the registry-semantics witness. -/
def c4TaskA : Task := ⟨"a", .pending, emptyDAG⟩

/-- A second task, not present in the witness registry. -/
def c4TaskB : Task := ⟨"b", .running, emptyDAG⟩

/-- The registry holding only `c4TaskA`. -/
def c4Reg : Registry := [("a", .task c4TaskA)]

/-- Three distinct task entities sharing the ID `x`, racing to register. -/
def raceT0 : Task := ⟨"x", .pending, emptyDAG⟩

/-- Second racing entity. -/
def raceT1 : Task := ⟨"x", .running, emptyDAG⟩

/-- Third racing entity. -/
def raceT2 : Task := ⟨"x", .pending, onePeerDAG⟩

/-- The race linearization order. -/
def raceTasks : List Task := [raceT0, raceT1, raceT2]

/-- A stand-in for the regular-expression engine in the priority witness:
matches the configured pattern `am` against the task URL
`example.com` (as in the unit test's "match the priority of url" case). -/
def witnessMatch (regex url : String) : Bool :=
  regex == "am" && url == "example.com"

/-- The application list of the priority witness: one application `bak`
with default priority 1 and a URL override of priority 2. -/
def priorityPr : ApplicationPriority := ⟨1, [⟨"am", 2⟩]⟩

/-- The matching application of the priority witness. -/
def priorityApp : Application := ⟨"bak", some priorityPr⟩

/-- The configured application list of the priority witness. -/
def priorityApps : List Application := [priorityApp]

/-- The 10-byte body `"test test "` served by the piece-download test. -/
def pieceBody : List Nat := [116, 101, 115, 116, 32, 116, 101, 115, 116, 32]

/-- A destination peer serving exactly `pieceBody` with status 200. -/
def pieceServer : HTTPRequest → HTTPResponse := fun _ => ⟨200, pieceBody⟩

/-- The download request for bytes 0–9 of task `task-0` with the correct
MD5 digest of `"test test "`. -/
def pieceReq : DownloadPieceRequest :=
  ⟨"task-0", true, 0, 10, "8f902bcf0625cd1af73789bf207c3880"⟩

/-- The same request with an intentionally corrupted expected digest. -/
def corruptReq : DownloadPieceRequest := ⟨"task-0", true, 0, 10, "bad"⟩

deriving instance DecidableEq for Except

/-! ## Theorems -/

/-! ### Reachability: the executable check agrees with the closure -/

theorem subset_expandStep (E : List (String × String)) (S : Finset String) :
    S ⊆ expandStep E S :=
  Finset.subset_union_left

theorem mem_expandStep_of_edge (E : List (String × String)) (S : Finset String)
    (a b : String) (ha : a ∈ S) (hab : (a, b) ∈ E) : b ∈ expandStep E S := by
  apply Finset.mem_union_right
  rw [List.mem_toFinset, List.mem_map]
  exact ⟨(a, b), List.mem_filter.mpr ⟨hab, by simpa using ha⟩, rfl⟩

theorem iterExpand_sound (E : List (String × String)) (s : String) :
    ∀ n d, d ∈ iterExpand E n {s} → Reach E s d := by
  intro n
  induction n with
  | zero =>
    intro d hd
    simp only [iterExpand, Finset.mem_singleton] at hd
    exact hd ▸ Relation.ReflTransGen.refl
  | succ n ih =>
    intro d hd
    simp only [iterExpand, expandStep, Finset.mem_union] at hd
    rcases hd with hd | hd
    · exact ih d hd
    · rw [List.mem_toFinset, List.mem_map] at hd
      obtain ⟨e, he, rfl⟩ := hd
      rw [List.mem_filter] at he
      obtain ⟨heE, heS⟩ := he
      have h1 : Reach E s e.1 := ih e.1 (by simpa using heS)
      exact Relation.ReflTransGen.tail h1 (show EdgeRel E e.1 e.2 from heE)

theorem reachable_sound (E : List (String × String)) (s d : String)
    (h : reachable E s d = true) : Reach E s d :=
  iterExpand_sound E s (E.length + 1) d (by simpa [reachable] using h)

theorem mem_of_closed_of_reach (E : List (String × String)) (S : Finset String)
    (hcl : ∀ a b, a ∈ S → (a, b) ∈ E → b ∈ S) (s d : String) (hs : s ∈ S)
    (h : Reach E s d) : d ∈ S := by
  induction h with
  | refl => exact hs
  | tail hab hbc ih => exact hcl _ _ ih hbc

theorem iterExpand_of_fix (E : List (String × String)) (S : Finset String)
    (hfix : expandStep E S = S) : ∀ n, iterExpand E n S = S := by
  intro n
  induction n with
  | zero => rfl
  | succ n ih => simp [iterExpand, ih, hfix]

theorem iterExpand_stable (E : List (String × String)) (S : Finset String) (k : Nat)
    (hfix : expandStep E (iterExpand E k S) = iterExpand E k S) :
    ∀ m, k ≤ m → iterExpand E m S = iterExpand E k S := by
  intro m hkm
  obtain ⟨j, rfl⟩ := Nat.exists_eq_add_of_le hkm
  induction j with
  | zero => rfl
  | succ j ih =>
    have : k + (j + 1) = (k + j) + 1 := by omega
    rw [this]
    show expandStep E (iterExpand E (k + j) S) = _
    rw [ih (by omega), hfix]

theorem iterExpand_subset_univ (E : List (String × String)) (s : String) :
    ∀ n, iterExpand E n {s} ⊆ {s} ∪ (E.map Prod.snd).toFinset := by
  intro n
  induction n with
  | zero => exact Finset.subset_union_left
  | succ n ih =>
    intro d hd
    simp only [iterExpand, expandStep, Finset.mem_union] at hd
    rcases hd with hd | hd
    · exact ih hd
    · rw [List.mem_toFinset, List.mem_map] at hd
      obtain ⟨e, he, rfl⟩ := hd
      rw [List.mem_filter] at he
      apply Finset.mem_union_right
      rw [List.mem_toFinset, List.mem_map]
      exact ⟨e, he.1, rfl⟩

theorem card_iterExpand_of_no_fix (E : List (String × String)) (s : String) :
    ∀ n, (∀ k, k < n → expandStep E (iterExpand E k {s}) ≠ iterExpand E k {s}) →
      n + 1 ≤ (iterExpand E n {s}).card := by
  intro n
  induction n with
  | zero => intro _; simp [iterExpand]
  | succ n ih =>
    intro h
    have hn : n + 1 ≤ (iterExpand E n {s}).card :=
      ih (fun k hk => h k (by omega))
    have hne : expandStep E (iterExpand E n {s}) ≠ iterExpand E n {s} :=
      h n (by omega)
    have hss : iterExpand E n {s} ⊂ iterExpand E (n + 1) {s} :=
      lt_of_le_of_ne (subset_expandStep E _) (fun heq => hne (heq.symm))
    have := Finset.card_lt_card hss
    omega

theorem exists_fix (E : List (String × String)) (s : String) :
    ∃ k, k ≤ E.length ∧ expandStep E (iterExpand E k {s}) = iterExpand E k {s} := by
  by_contra hcon
  push_neg at hcon
  have hgrow := card_iterExpand_of_no_fix E s (E.length + 1)
    (fun k hk => hcon k (by omega))
  have hsub := iterExpand_subset_univ E s (E.length + 1)
  have hcard : (iterExpand E (E.length + 1) {s}).card ≤
      ({s} ∪ (E.map Prod.snd).toFinset : Finset String).card :=
    Finset.card_le_card hsub
  have hu : ({s} ∪ (E.map Prod.snd).toFinset : Finset String).card ≤ 1 + E.length := by
    calc ({s} ∪ (E.map Prod.snd).toFinset : Finset String).card
        ≤ ({s} : Finset String).card + (E.map Prod.snd).toFinset.card :=
          Finset.card_union_le _ _
      _ ≤ 1 + (E.map Prod.snd).length := by
          have := (E.map Prod.snd).toFinset_card_le
          simp only [Finset.card_singleton]
          omega
      _ = 1 + E.length := by rw [List.length_map]
  omega

theorem reachable_complete (E : List (String × String)) (s d : String)
    (h : Reach E s d) : reachable E s d = true := by
  obtain ⟨k, hk, hfix⟩ := exists_fix E s
  have hs : s ∈ iterExpand E k {s} := by
    have hbase : s ∈ iterExpand E 0 {s} := by simp [iterExpand]
    clear hfix
    induction k with
    | zero => exact hbase
    | succ k ih => exact subset_expandStep E _ (ih (by omega))
  have hcl : ∀ a b, a ∈ iterExpand E k {s} → (a, b) ∈ E → b ∈ iterExpand E k {s} := by
    intro a b ha hab
    have := mem_expandStep_of_edge E (iterExpand E k {s}) a b ha hab
    rwa [hfix] at this
  have hd : d ∈ iterExpand E k {s} := mem_of_closed_of_reach E _ hcl s d hs h
  have hst := iterExpand_stable E {s} k hfix (E.length + 1) (by omega)
  rw [reachable, decide_eq_true_iff, hst]
  exact hd

/-! ### Acyclicity invariant and topological rank -/

theorem reach_cons (E : List (String × String)) (p c x y : String)
    (h : Reach ((p, c) :: E) x y) :
    Reach E x y ∨ (Reach E x p ∧ Reach E c y) := by
  induction h with
  | refl => exact Or.inl Relation.ReflTransGen.refl
  | tail hab hbc ih =>
    rcases List.mem_cons.mp hbc with hnew | hold
    · have h1 : Reach E x p := by
        rcases ih with ih | ih
        · exact (Prod.mk.injEq .. ▸ hnew : _ = _ ∧ _ = _).1 ▸ ih
        · exact ih.1
      have h2 := (Prod.mk.injEq .. ▸ hnew : _ = _ ∧ _ = _).2
      exact Or.inr ⟨h1, h2 ▸ Relation.ReflTransGen.refl⟩
    · rcases ih with ih | ih
      · exact Or.inl (Relation.ReflTransGen.tail ih hold)
      · exact Or.inr ⟨ih.1, Relation.ReflTransGen.tail ih.2 hold⟩

theorem acyclic_insert (E : List (String × String)) (p c : String)
    (hE : Acyclic E) (hnp : ¬ Reach E c p) (hne : p ≠ c) :
    Acyclic ((p, c) :: E) := by
  intro a b hab hreach
  rcases List.mem_cons.mp hab with hnew | hold
  · obtain ⟨rfl, rfl⟩ := Prod.mk.injEq .. ▸ hnew
    rcases reach_cons E a b b a hreach with h | h
    · exact hnp h
    · exact hnp h.1
  · rcases reach_cons E p c b a hreach with h | h
    · exact hE a b hold h
    · have hcb : Reach E c b := Relation.ReflTransGen.tail h.2 hold
      exact hnp (hcb.trans h.1)

theorem rank_lt_of_edge (E : List (String × String)) (a b : String)
    (hacy : Acyclic E) (hab : (a, b) ∈ E) : rankOf E a < rankOf E b := by
  have hsub : (edgeNodes E).filter (fun u => reachable E u a = true) ⊆
      (edgeNodes E).filter (fun u => reachable E u b = true) := by
    intro u hu
    rw [Finset.mem_filter] at hu ⊢
    refine ⟨hu.1, reachable_complete E u b ?_⟩
    exact Relation.ReflTransGen.tail (reachable_sound E u a hu.2) hab
  have hbmem : b ∈ (edgeNodes E).filter (fun u => reachable E u b = true) := by
    rw [Finset.mem_filter]
    constructor
    · rw [edgeNodes, List.mem_toFinset, List.mem_append]
      exact Or.inr (List.mem_map.mpr ⟨(a, b), hab, rfl⟩)
    · exact reachable_complete E b b Relation.ReflTransGen.refl
  have hbnot : b ∉ (edgeNodes E).filter (fun u => reachable E u a = true) := by
    rw [Finset.mem_filter]
    rintro ⟨-, hba⟩
    exact hacy a b hab (reachable_sound E b a hba)
  exact Finset.card_lt_card
    ((Finset.ssubset_iff_of_subset hsub).mpr ⟨b, hbmem, hbnot⟩)

theorem ginv_empty : GInv emptyDAG := by
  constructor
  · intro a b hab; simp [emptyDAG] at hab
  · intro e he; simp [emptyDAG] at he

theorem ginv_applyGraphOp (g : DAG) (op : GraphOp) (h : GInv g) :
    GInv (applyGraphOp g op) := by
  cases op with
  | store v =>
    simp only [applyGraphOp, storePeer]
    split
    · exact h
    · exact ⟨h.1, fun e he => ⟨List.mem_cons_of_mem _ (h.2 e he).1,
        List.mem_cons_of_mem _ (h.2 e he).2⟩⟩
  | addEdge p c =>
    simp only [applyGraphOp]
    cases hE : addPeerEdge g p c with
    | error e => exact h
    | ok g' =>
      rw [addPeerEdge] at hE
      split at hE
      · simp at hE
      · split at hE
        · split at hE
          · simp at hE
          · rename_i hne hmem hreach
            injection hE with hgg
            subst hgg
            refine ⟨acyclic_insert g.edges p c h.1 ?_ hne, ?_⟩
            · intro hr
              rw [reachable_complete g.edges c p hr] at hreach
              exact hreach rfl
            · intro e he
              rcases List.mem_cons.mp he with rfl | hold
              · exact hmem
              · exact h.2 e hold
        · simp at hE

theorem ginv_foldl (ops : List GraphOp) (g : DAG) (h : GInv g) :
    GInv (ops.foldl applyGraphOp g) := by
  induction ops generalizing g with
  | nil => exact h
  | cons op rest ih => exact ih _ (ginv_applyGraphOp g op h)

theorem ginv_runGraph (ops : List GraphOp) : GInv (runGraph ops) :=
  ginv_foldl ops emptyDAG ginv_empty

theorem addPeerEdge_cycle_of_reach (g : DAG) (p c : String) (hg : GInv g)
    (hr : Reach g.edges c p) : addPeerEdge g p c = .error .cycle := by
  rw [addPeerEdge]
  by_cases hpc : p = c
  · simp [hpc]
  · rw [if_neg hpc]
    have hv : p ∈ g.vertices ∧ c ∈ g.vertices := by
      constructor
      · rcases (Relation.ReflTransGen.cases_tail hr) with rfl | ⟨m, _, hmp⟩
        · exact absurd rfl hpc
        · exact (hg.2 (m, p) hmp).2
      · rcases (Relation.ReflTransGen.cases_head hr) with rfl | ⟨m, hcm, _⟩
        · exact absurd rfl hpc
        · exact (hg.2 (c, m) hcm).1
    rw [if_pos hv, if_pos (reachable_complete g.edges c p hr)]

/-! ### Registry lemmas -/

theorem taskEventLeave_of_ne (s : TaskState) (h : s ≠ .leave) :
    taskEventLeave s = .ok .leave := by
  cases s <;> first | rfl | exact absurd rfl h

theorem wf_cons (k : String) (v : GoValue) (rest : Registry)
    (h : wf ((k, v) :: rest)) :
    wf rest ∧ entryOk (k, v) = true ∧ k ∉ rest.map Prod.fst := by
  obtain ⟨hnd, hok⟩ := h
  rw [List.map_cons, List.nodup_cons] at hnd
  exact ⟨⟨hnd.2, fun p hp => hok p (List.mem_cons_of_mem _ hp)⟩,
    hok (k, v) (List.mem_cons_self _ _), hnd.1⟩

theorem rawDelete_of_not_mem (reg : Registry) (key : String)
    (h : key ∉ reg.map Prod.fst) : rawDelete reg key = reg := by
  rw [rawDelete, List.filter_eq_self]
  intro p hp
  simp only [bne_iff_ne, ne_eq]
  intro hk
  exact h (hk ▸ List.mem_map.mpr ⟨p, hp, rfl⟩)

theorem gcStep_fst (p q : String × GoValue) (h : gcStep p = some q) :
    q.1 = p.1 := by
  obtain ⟨k, v⟩ := p
  cases v with
  | other =>
    simp only [gcStep] at h
    injection h with h1
    subst h1
    rfl
  | task t =>
    simp only [gcStep] at h
    split at h
    · simp at h
    · split at h
      · injection h with h1; subst h1; rfl
      · injection h with h1; subst h1; rfl

theorem gcStep_entryOk (p q : String × GoValue) (hok : entryOk p = true)
    (h : gcStep p = some q) : entryOk q = true := by
  obtain ⟨k, v⟩ := p
  cases v with
  | other => simp [entryOk] at hok
  | task t =>
    simp only [gcStep] at h
    split at h
    · simp at h
    · split at h
      · injection h with h1; subst h1; simpa [entryOk] using hok
      · injection h with h1; subst h1; exact hok

theorem rangeGCAux_eq_filterMap (fuel : Nat) :
    ∀ reg : Registry, reg.length ≤ fuel → wf reg →
      rangeGCAux fuel reg = .ok (reg.filterMap gcStep) := by
  induction fuel with
  | zero =>
    intro reg hlen _
    cases reg with
    | nil => simp [rangeGCAux]
    | cons p rest => simp at hlen
  | succ fuel ih =>
    intro reg hlen h
    cases reg with
    | nil => simp [rangeGCAux]
    | cons p rest =>
      obtain ⟨k, v⟩ := p
      obtain ⟨hrest, hok, hnotin⟩ := wf_cons k v rest h
      have hlen' : rest.length ≤ fuel := by simp at hlen; omega
      cases v with
      | other => simp [entryOk] at hok
      | task t =>
        have hk : k = t.id := by simpa [entryOk] using hok
        by_cases hl : t.state = .leave
        · have hdel : rawDelete rest t.id = rest :=
            rawDelete_of_not_mem rest t.id (hk ▸ hnotin)
          rw [rangeGCAux]
          simp [gcVisit, hl, hk, hdel, ih rest hlen' hrest, gcStep,
            List.filterMap_cons]
        · by_cases hpc : t.peerCount = 0
          · rw [rangeGCAux]
            simp [gcVisit, hl, hpc, taskEventLeave_of_ne t.state hl,
              ih rest hlen' hrest, gcStep, List.filterMap_cons]
          · rw [rangeGCAux]
            simp [gcVisit, hl, hpc, ih rest hlen' hrest, gcStep,
              List.filterMap_cons]

theorem rangeGC_eq_filterMap (reg : Registry) (h : wf reg) :
    rangeGC reg = .ok (reg.filterMap gcStep) :=
  rangeGCAux_eq_filterMap reg.length reg le_rfl h

theorem keys_filterMap_sublist (reg : Registry) :
    ((reg.filterMap gcStep).map Prod.fst).Sublist (reg.map Prod.fst) := by
  induction reg with
  | nil => simp
  | cons p rest ih =>
    rw [List.filterMap_cons]
    cases hg : gcStep p with
    | none =>
      rw [List.map_cons]
      exact ih.trans (List.sublist_cons_self _ _)
    | some q =>
      rw [List.map_cons, List.map_cons, gcStep_fst p q hg]
      exact ih.cons₂ _

theorem wf_gcResult (reg : Registry) (h : wf reg) :
    wf (reg.filterMap gcStep) := by
  constructor
  · exact h.1.sublist (keys_filterMap_sublist reg)
  · intro q hq
    rw [List.mem_filterMap] at hq
    obtain ⟨p, hp, hpq⟩ := hq
    exact gcStep_entryOk p q (h.2 p hp) hpq

theorem RunGC_eq (reg : Registry) (h : wf reg) :
    TaskManager.RunGC reg = .ok (reg.filterMap gcStep, none) := by
  rw [TaskManager.RunGC, rangeGC_eq_filterMap reg h]

theorem key_unique (reg : Registry) (h : (reg.map Prod.fst).Nodup)
    (k : String) (a b : GoValue) (ha : (k, a) ∈ reg) (hb : (k, b) ∈ reg) :
    a = b := by
  induction reg with
  | nil => simp at ha
  | cons p rest ih =>
    rw [List.map_cons, List.nodup_cons] at h
    rcases List.mem_cons.mp ha with rfl | ha' <;>
      rcases List.mem_cons.mp hb with hb' | hb'
    · exact (Prod.mk.injEq .. ▸ congrArg id hb' : _ ∧ _).2.symm
    · exact absurd (List.mem_map.mpr ⟨(k, b), hb', rfl⟩) h.1
    · subst hb'
      exact absurd (List.mem_map.mpr ⟨(k, a), ha', rfl⟩) h.1
    · exact ih h.2 ha' hb'

theorem rawLoad_rawStore_self (reg : Registry) (key : String) (v : GoValue) :
    rawLoad (rawStore reg key v) key = some v := by
  induction reg with
  | nil => simp [rawStore, rawLoad, List.find?]
  | cons p rest ih =>
    rw [rawStore]
    split
    · simp [rawLoad, List.find?]
    · rename_i hne
      have hb : (p.1 == key) = false := by simpa using hne
      simp only [rawLoad, List.find?_cons, hb] at ih ⊢
      exact ih

theorem rawLoad_eq_none_iff (reg : Registry) (key : String) :
    rawLoad reg key = none ↔ ∀ v, (key, v) ∉ reg := by
  rw [rawLoad, Option.map_eq_none', List.find?_eq_none]
  constructor
  · intro h v hv
    exact h (key, v) hv (by simp)
  · rintro h ⟨k', v'⟩ hp hb
    rw [beq_iff_eq] at hb
    subst hb
    exact h v' hp

theorem rawLoad_eq_some_of_mem (reg : Registry) (hnd : (reg.map Prod.fst).Nodup)
    (key : String) (v : GoValue) (h : (key, v) ∈ reg) :
    rawLoad reg key = some v := by
  cases hr : rawLoad reg key with
  | none => exact absurd h ((rawLoad_eq_none_iff reg key).mp hr v)
  | some w =>
    rw [rawLoad] at hr
    obtain ⟨q, hq, hqw⟩ := Option.map_eq_some'.mp hr
    have hqmem := List.mem_of_find?_eq_some hq
    have hqkey : q.1 = key := by
      have := List.find?_some hq
      simpa using this
    have hmem' : (key, q.2) ∈ reg := by
      rw [← hqkey]
      exact hqmem
    have hqv := key_unique reg hnd key q.2 v hmem' h
    rw [← hqw, hqv]

theorem mem_keys_rawStore (reg : Registry) (key k' : String) (v : GoValue)
    (h : k' ∈ (rawStore reg key v).map Prod.fst) :
    k' ∈ reg.map Prod.fst ∨ k' = key := by
  induction reg with
  | nil => simp [rawStore] at h; exact Or.inr h
  | cons p rest ih =>
    rw [rawStore] at h
    split at h
    · rename_i hp
      rw [List.map_cons] at h ⊢
      rcases List.mem_cons.mp h with rfl | h'
      · exact Or.inr rfl
      · exact Or.inl (List.mem_cons_of_mem _ h')
    · rw [List.map_cons] at h ⊢
      rcases List.mem_cons.mp h with rfl | h'
      · exact Or.inl (List.mem_cons_self _ _)
      · rcases ih h' with h'' | h''
        · exact Or.inl (List.mem_cons_of_mem _ h'')
        · exact Or.inr h''

theorem wf_rawStore (reg : Registry) (key : String) (v : GoValue) (h : wf reg)
    (hok : entryOk (key, v) = true) : wf (rawStore reg key v) := by
  induction reg with
  | nil =>
    constructor
    · simp [rawStore]
    · intro p hp
      rw [rawStore, List.mem_singleton] at hp
      exact hp ▸ hok
  | cons p rest ih =>
    obtain ⟨hrest, hpok, hnotin⟩ := wf_cons p.1 p.2 rest h
    rw [rawStore]
    split
    · rename_i hp
      constructor
      · rw [List.map_cons, List.nodup_cons]
        exact ⟨hp ▸ hnotin, hrest.1⟩
      · intro q hq
        rcases List.mem_cons.mp hq with rfl | hq'
        · exact hok
        · exact hrest.2 q hq'
    · rename_i hp
      have ihw := ih hrest
      constructor
      · rw [List.map_cons, List.nodup_cons]
        refine ⟨fun hmem => ?_, ihw.1⟩
        rcases mem_keys_rawStore rest key p.1 v hmem with h' | h'
        · exact hnotin h'
        · exact hp h'
      · intro q hq
        rcases List.mem_cons.mp hq with rfl | hq'
        · exact hpok
        · exact ihw.2 q hq'

theorem wf_rawDelete (reg : Registry) (key : String) (h : wf reg) :
    wf (rawDelete reg key) := by
  constructor
  · exact h.1.sublist ((List.filter_sublist reg).map Prod.fst)
  · intro p hp
    exact h.2 p (List.mem_of_mem_filter hp)

theorem wf_applyRegistryOp (reg : Registry) (op : RegistryOp) (h : wf reg) :
    wf (applyRegistryOp reg op) := by
  cases op with
  | store t => exact wf_rawStore reg t.id (.task t) h (by simp [entryOk])
  | loadOrStore t =>
    rw [applyRegistryOp, TaskManager.LoadOrStore]
    cases hr : rawLoad reg t.id with
    | none => exact wf_rawStore reg t.id (.task t) h (by simp [entryOk])
    | some v => cases v <;> exact h
  | delete key => exact wf_rawDelete reg key h

theorem wf_applyRegistryOps (ops : List RegistryOp) : wf (applyRegistryOps ops) := by
  have hgen : ∀ reg, wf reg → wf (ops.foldl applyRegistryOp reg) := by
    induction ops with
    | nil => exact fun reg h => h
    | cons op rest ih => exact fun reg h => ih _ (wf_applyRegistryOp reg op h)
  exact hgen [] ⟨List.nodup_nil, by intro p hp; simp at hp⟩

theorem find?_of_first (p : URLPriority → Bool) (l : List URLPriority) :
    ∀ i (hi : i < l.length),
      (∀ j (hj : j < i), p (l.get ⟨j, Nat.lt_trans hj hi⟩) = false) →
      p (l.get ⟨i, hi⟩) = true → l.find? p = some (l.get ⟨i, hi⟩) := by
  induction l with
  | nil => intro i hi; simp at hi
  | cons x rest ih =>
    intro i hi hbefore hhit
    cases i with
    | zero =>
      rw [List.find?_cons]
      simp only [List.get] at hhit
      rw [hhit]
      rfl
    | succ n =>
      have hx : p x = false := hbefore 0 (Nat.succ_pos n)
      rw [List.find?_cons, hx]
      exact ih n (Nat.lt_of_succ_lt_succ hi)
        (fun j hj => hbefore (j + 1) (Nat.succ_lt_succ hj)) hhit

theorem readAllAux_eq (expected : String) (verify : Bool) :
    ∀ pending consumed, readAllAux expected verify consumed pending =
      (pending, if verify then
        (if md5Hex (consumed ++ pending) = expected then none else some .mismatch)
      else none) := by
  intro pending
  induction pending with
  | nil => intro consumed; simp [readAllAux]
  | cons b rest ih =>
    intro consumed
    rw [readAllAux, ih (consumed ++ [b])]
    simp

/-! ### GC membership helpers -/

theorem gc_result_not_mem_of_leave (reg : Registry) (h : wf reg) (k : String)
    (t : Task) (hmem : (k, GoValue.task t) ∈ reg) (hl : t.state = .leave)
    (v : GoValue) : (k, v) ∉ reg.filterMap gcStep := by
  intro hv
  rw [List.mem_filterMap] at hv
  obtain ⟨p, hp, hpq⟩ := hv
  obtain ⟨k', v'⟩ := p
  have hk : k' = k := by
    have := gcStep_fst (k', v') (k, v) hpq
    simpa using this.symm
  subst hk
  have hvv := key_unique reg h.1 k' v' (.task t) hp hmem
  subst hvv
  simp [gcStep, hl] at hpq

theorem gc_result_mem_of_empty (reg : Registry) (k : String) (t : Task)
    (hmem : (k, GoValue.task t) ∈ reg) (hnl : t.state ≠ .leave)
    (hpc : t.peerCount = 0) :
    (k, GoValue.task { t with state := .leave }) ∈ reg.filterMap gcStep :=
  List.mem_filterMap.mpr ⟨(k, .task t), hmem, by simp [gcStep, hnl, hpc]⟩

/-! ### Raw map helpers -/

theorem mem_of_rawLoad_eq_some (reg : Registry) (key : String) (v : GoValue)
    (h : rawLoad reg key = some v) : (key, v) ∈ reg := by
  rw [rawLoad] at h
  obtain ⟨q, hq, hqv⟩ := Option.map_eq_some'.mp h
  have hqmem := List.mem_of_find?_eq_some hq
  have hqkey : q.1 = key := by simpa using List.find?_some hq
  rw [← hqkey, ← hqv]
  exact hqmem

theorem rawLoad_rawDelete_self (reg : Registry) (key : String) :
    rawLoad (rawDelete reg key) key = none := by
  rw [rawLoad_eq_none_iff]
  intro v hv
  rw [rawDelete, List.mem_filter] at hv
  simp at hv

theorem rawLoad_cons_none (p : String × GoValue) (rest : Registry) (key : String)
    (h : rawLoad (p :: rest) key = none) :
    p.1 ≠ key ∧ rawLoad rest key = none := by
  rw [rawLoad_eq_none_iff] at h ⊢
  constructor
  · intro hk
    exact h p.2 (by rw [← hk]; exact List.mem_cons_self _ _)
  · exact fun v hv => h v (List.mem_cons_of_mem _ hv)

theorem countKey_rawStore_of_none (reg : Registry) (key : String) (v : GoValue)
    (h : rawLoad reg key = none) : countKey (rawStore reg key v) key = 1 := by
  induction reg with
  | nil => simp [rawStore, countKey]
  | cons p rest ih =>
    obtain ⟨hne, hrest⟩ := rawLoad_cons_none p rest key h
    have hb : (p.1 == key) = false := by simpa using hne
    rw [rawStore]
    rw [if_neg hne]
    rw [countKey, List.filter_cons, hb]
    exact ih hrest

theorem loadOrStoreAll_loaded (i : String) (u : Task) (reg : Registry)
    (hload : rawLoad reg i = some (.task u)) :
    ∀ ts : List Task, (∀ t ∈ ts, t.id = i) →
      loadOrStoreAll reg ts = .ok (ts.map (fun _ => (u, true)), reg) := by
  intro ts
  induction ts with
  | nil => intro _; rfl
  | cons t rest ih =>
    intro hids
    have hid : t.id = i := hids t (List.mem_cons_self _ _)
    simp only [loadOrStoreAll, TaskManager.LoadOrStore, hid, hload,
      ih (fun x hx => hids x (List.mem_cons_of_mem _ hx)), List.map_cons]

/-! ## Claim theorems -/

/-- C1: in every GC pass over a well-formed registry, every task whose FSM
state is `Leave` when visited is deleted; every task not in `Leave` whose
peer-graph node count is zero has `Leave` fired on its FSM (its entry
survives the pass with state `Leave`) and is not deleted in that pass; and
such a task is deleted only on the following pass — two-pass
reclamation. -/
theorem taskGC_two_pass_reclamation (reg : Registry) (h : wf reg) :
    ∃ res, TaskManager.RunGC reg = .ok (res, none) ∧
      (∀ k t v, (k, GoValue.task t) ∈ reg → t.state = .leave → (k, v) ∉ res) ∧
      (∀ k t, (k, GoValue.task t) ∈ reg → t.state ≠ .leave → t.peerCount = 0 →
        (k, GoValue.task { t with state := .leave }) ∈ res) ∧
      (∀ k t, (k, GoValue.task t) ∈ reg → t.state ≠ .leave → t.peerCount = 0 →
        ∃ res2, TaskManager.RunGC res = .ok (res2, none) ∧ ∀ v, (k, v) ∉ res2) := by
  refine ⟨reg.filterMap gcStep, RunGC_eq reg h, ?_, ?_, ?_⟩
  · intro k t v hmem hl
    exact gc_result_not_mem_of_leave reg h k t hmem hl v
  · intro k t hmem hnl hpc
    exact gc_result_mem_of_empty reg k t hmem hnl hpc
  · intro k t hmem hnl hpc
    have hres := wf_gcResult reg h
    refine ⟨(reg.filterMap gcStep).filterMap gcStep, RunGC_eq _ hres, fun v => ?_⟩
    exact gc_result_not_mem_of_leave _ hres k _
      (gc_result_mem_of_empty reg k t hmem hnl hpc) rfl v

/-- Witness for C1 on a concrete registry: the `Leave` task `a` is deleted
by the pass, while the empty running task `b` survives it in state
`Leave`. -/
theorem taskGC_two_pass_reclamation_witness :
    ∃ res, TaskManager.RunGC gcWitnessReg = .ok (res, none) ∧
      (∀ v, ("a", v) ∉ res) ∧
      ("b", GoValue.task ⟨"b", .leave, emptyDAG⟩) ∈ res := by
  obtain ⟨res, h1, h2, h3, _⟩ := taskGC_two_pass_reclamation gcWitnessReg (by decide)
  refine ⟨res, h1, fun v => h2 "a" ⟨"a", .leave, emptyDAG⟩ v (by decide) rfl, ?_⟩
  exact h3 "b" ⟨"b", .running, emptyDAG⟩ (by decide) (by decide) (by decide)

/-- C3 counterexample: the sweep does not re-check the peer count before
removing a `Leave` task — a task in `Leave` whose graph still holds one
peer is deleted anyway, so "deleted only if its peer-graph node count is
still zero at delete time" is false on the code. -/
theorem gc_leave_delete_ignores_peer_count :
    leaveTaskWithPeer.peerCount = 1 ∧ leaveTaskWithPeer.state = .leave ∧
    TaskManager.RunGC [("t", .task leaveTaskWithPeer)] = .ok ([], none) := by
  decide

/-- C3 amended: when the GC sweep encounters a task already in `Leave`, it
deletes it from the registry unconditionally — no peer-count re-check
happens at delete time. -/
theorem gc_leave_delete_unconditional (reg : Registry) (h : wf reg)
    (k : String) (t : Task) (hmem : (k, GoValue.task t) ∈ reg)
    (hl : t.state = .leave) :
    ∃ res, TaskManager.RunGC reg = .ok (res, none) ∧ ∀ v, (k, v) ∉ res :=
  ⟨reg.filterMap gcStep, RunGC_eq reg h,
    fun v => gc_result_not_mem_of_leave reg h k t hmem hl v⟩

/-- Witness for the amended C3: the re-populated `Leave` task is removed
by the pass. -/
theorem gc_leave_delete_unconditional_witness :
    ∃ res, TaskManager.RunGC [("t", GoValue.task leaveTaskWithPeer)] =
      .ok (res, none) ∧ ∀ v, ("t", v) ∉ res :=
  gc_leave_delete_unconditional [("t", .task leaveTaskWithPeer)] (by decide)
    "t" leaveTaskWithPeer (by decide) rfl

/-- C5: `RunGC` on a well-formed registry always returns success (the Go
`error` result is nil) with the whole sweep applied, and the range
callback returns `true` (continue) on every task, so no per-entity outcome
ever aborts the sweep or reaches the GC scheduler. -/
theorem runGC_always_succeeds (reg : Registry) (h : wf reg) :
    TaskManager.RunGC reg = .ok (reg.filterMap gcStep, none) ∧
    ∀ t : Task, ∃ act, gcVisit (.task t) = .ok (act, true) := by
  refine ⟨RunGC_eq reg h, fun t => ?_⟩
  rw [gcVisit]
  by_cases hl : t.state = .leave
  · exact ⟨.deleteID t.id, by simp [hl]⟩
  · by_cases hpc : t.peerCount = 0
    · exact ⟨.keep (.task { t with state := .leave }),
        by simp [hl, hpc, taskEventLeave_of_ne t.state hl]⟩
    · exact ⟨.keep (.task t), by simp [hl, hpc]⟩

/-- Witness for C5: the sweep of the concrete registry returns nil. -/
theorem runGC_always_succeeds_witness :
    TaskManager.RunGC gcWitnessReg = .ok (gcWitnessReg.filterMap gcStep, none) :=
  (runGC_always_succeeds gcWitnessReg (by decide)).1

/-- C10: every registry reachable through the typed `TaskManager`
interface holds only `*Task` values, so the invalid-task branch of
`RunGC`'s range callback (which would dereference a nil `task` to log) is
unreachable and `RunGC` never panics. -/
theorem runGC_no_panic_via_typed_interface (ops : List RegistryOp) :
    (∀ p ∈ applyRegistryOps ops, ∃ t, p.2 = GoValue.task t) ∧
    ∃ res, TaskManager.RunGC (applyRegistryOps ops) = .ok res := by
  have hwf := wf_applyRegistryOps ops
  constructor
  · intro p hp
    have hok := hwf.2 p hp
    obtain ⟨k, v⟩ := p
    cases v with
    | task t => exact ⟨t, rfl⟩
    | other => simp [entryOk] at hok
  · exact ⟨((applyRegistryOps ops).filterMap gcStep, none), RunGC_eq _ hwf⟩

/-- Witness for C10 at a concrete operation sequence. -/
theorem runGC_no_panic_via_typed_interface_witness :
    ∃ res, TaskManager.RunGC
      (applyRegistryOps [.store c4TaskA, .loadOrStore c4TaskB, .delete "a"]) =
        .ok res :=
  (runGC_no_panic_via_typed_interface
    [.store c4TaskA, .loadOrStore c4TaskB, .delete "a"]).2

/-- C4: the typed map semantics of the task manager on a well-formed
registry: `Load` answers `some t` exactly for the task currently stored
under the key (and `none` otherwise), `Load` after `Store` returns the
stored task, `Load` after `Delete` misses, and `LoadOrStore` returns the
existing task with `loaded = true` when present and otherwise stores its
argument and returns it with `loaded = false`. -/
theorem taskManager_map_semantics (reg : Registry) (h : wf reg) (t : Task)
    (id : String) :
    (∀ u, TaskManager.Load reg id = .ok (some u) ↔ (id, GoValue.task u) ∈ reg) ∧
    TaskManager.Load (TaskManager.Store reg t) t.id = .ok (some t) ∧
    TaskManager.Load (TaskManager.Delete reg id) id = .ok none ∧
    (∀ u, TaskManager.Load reg t.id = .ok (some u) →
      TaskManager.LoadOrStore reg t = .ok (u, true, reg)) ∧
    (TaskManager.Load reg t.id = .ok none →
      TaskManager.LoadOrStore reg t = .ok (t, false, TaskManager.Store reg t)) := by
  have hload : ∀ key u, TaskManager.Load reg key = .ok (some u) →
      rawLoad reg key = some (.task u) := by
    intro key u hu
    rw [TaskManager.Load] at hu
    cases hr : rawLoad reg key with
    | none => rw [hr] at hu; simp at hu
    | some v =>
      rw [hr] at hu
      cases v with
      | task w => injection hu with h1; rw [Option.some.injEq] at h1; rw [h1]
      | other => simp at hu
  refine ⟨?_, ?_, ?_, ?_, ?_⟩
  · intro u
    constructor
    · intro hu
      exact mem_of_rawLoad_eq_some reg id (.task u) (hload id u hu)
    · intro hmem
      have := rawLoad_eq_some_of_mem reg h.1 id (.task u) hmem
      rw [TaskManager.Load, this]
  · rw [TaskManager.Load, TaskManager.Store, rawLoad_rawStore_self]
  · rw [TaskManager.Load, TaskManager.Delete, rawLoad_rawDelete_self]
  · intro u hu
    rw [TaskManager.LoadOrStore, hload t.id u hu]
  · intro hnone
    rw [TaskManager.Load] at hnone
    cases hr : rawLoad reg t.id with
    | none => rw [TaskManager.LoadOrStore, hr, TaskManager.Store]
    | some v =>
      rw [hr] at hnone
      cases v with
      | task w => simp at hnone
      | other => simp at hnone

/-- Witness for C4 on a one-entry registry. -/
theorem taskManager_map_semantics_witness :
    (TaskManager.Load c4Reg "a" = .ok (some c4TaskA) ↔
      ("a", GoValue.task c4TaskA) ∈ c4Reg) ∧
    TaskManager.Load (TaskManager.Store c4Reg c4TaskB) c4TaskB.id =
      .ok (some c4TaskB) ∧
    TaskManager.Load (TaskManager.Delete c4Reg "a") "a" = .ok none ∧
    TaskManager.LoadOrStore c4Reg c4TaskB =
      .ok (c4TaskB, false, TaskManager.Store c4Reg c4TaskB) := by
  obtain ⟨h1, h2, h3, _, h5⟩ :=
    taskManager_map_semantics c4Reg (by decide) c4TaskB "a"
  exact ⟨h1 c4TaskA, h2, h3, h5 (by decide)⟩

/-- C9: any linearization of N concurrent `LoadOrStore` calls with task
entities sharing one ID, against a registry with no entry for that ID,
stores exactly the first entity (its caller alone observes
`loaded = false`), hands every other caller that same stored entity with
`loaded = true`, and leaves exactly one entry under the ID. -/
theorem loadOrStore_single_registration (reg : Registry) (i : String)
    (t0 : Task) (rest : List Task) (hempty : rawLoad reg i = none)
    (hid0 : t0.id = i) (hids : ∀ t ∈ rest, t.id = i) :
    loadOrStoreAll reg (t0 :: rest) =
      .ok ((t0, false) :: rest.map (fun _ => (t0, true)),
        rawStore reg i (.task t0)) ∧
    rawLoad (rawStore reg i (.task t0)) i = some (.task t0) ∧
    countKey (rawStore reg i (.task t0)) i = 1 := by
  have hself : rawLoad (rawStore reg i (.task t0)) i = some (.task t0) :=
    rawLoad_rawStore_self reg i (.task t0)
  refine ⟨?_, hself, countKey_rawStore_of_none reg i (.task t0) hempty⟩
  have hrest := loadOrStoreAll_loaded i t0 (rawStore reg i (.task t0)) hself rest hids
  simp only [loadOrStoreAll, TaskManager.LoadOrStore, hid0, hempty, hrest]

/-- Witness for C9: three entities race for the ID `x` on the empty map;
the first is stored, the other two load it. -/
theorem loadOrStore_single_registration_witness :
    loadOrStoreAll [] raceTasks =
      .ok ([(raceT0, false), (raceT0, true), (raceT0, true)],
        rawStore [] "x" (.task raceT0)) ∧
    countKey (rawStore [] "x" (.task raceT0)) "x" = 1 := by
  obtain ⟨h1, _, h3⟩ :=
    loadOrStore_single_registration [] "x" raceT0 [raceT1, raceT2] rfl rfl
      (by decide)
  exact ⟨h1, h3⟩

/-- C2: on every graph reachable by a sequence of mutations, an
`AddPeerEdge(parent, child)` whose insertion would close a cycle (the
parent already reachable from the child) fails with a `CycleError` — and a
failed call carries no mutation, so the edge set is unchanged; self-edges
fail with a `CycleError` on every graph; the reachable graph is acyclic
and admits a topological ordering (a rank strictly increasing along every
edge). -/
theorem addPeerEdge_acyclic (ops : List GraphOp) (g : DAG)
    (hg : g = runGraph ops) :
    (∀ p c, Reach g.edges c p → addPeerEdge g p c = .error .cycle) ∧
    (∀ g' : DAG, ∀ p, addPeerEdge g' p p = .error .cycle) ∧
    Acyclic g.edges ∧
    (∃ rank : String → Nat, ∀ e ∈ g.edges, rank e.1 < rank e.2) := by
  subst hg
  have hinv := ginv_runGraph ops
  refine ⟨?_, ?_, hinv.1, ⟨rankOf (runGraph ops).edges, ?_⟩⟩
  · intro p c hr
    exact addPeerEdge_cycle_of_reach _ p c hinv hr
  · intro g' p
    rw [addPeerEdge, if_pos rfl]
  · intro e he
    exact rank_lt_of_edge _ e.1 e.2 hinv.1 he

/-- Witness for C2: with the edge a → b in place, adding b → a (a cycle)
and b → b (a self-edge) both fail with `CycleError`. -/
theorem addPeerEdge_acyclic_witness :
    addPeerEdge (runGraph cycleOps) "b" "a" = .error .cycle ∧
    addPeerEdge (runGraph cycleOps) "b" "b" = .error .cycle := by
  obtain ⟨h1, h2, _, _⟩ := addPeerEdge_acyclic cycleOps (runGraph cycleOps) rfl
  refine ⟨h1 "b" "a" (Relation.ReflTransGen.single ?_), h2 _ "b"⟩
  show EdgeRel (runGraph cycleOps).edges "a" "b"
  exact (by decide : ("a", "b") ∈ (runGraph cycleOps).edges)

/-- C6: priority resolution never fails its caller and resolves as
specified: a failed applications lookup, an empty list, no application
matching the peer's label, or a matching application without a priority
all yield the lowest level; with a matching application, the first
URL-regex override (in configured order) matching the task URL wins over
the application's default value, which applies when no override
matches. -/
theorem getPriority_resolution (m : String → String → Bool)
    (app url : String) (l : List Application) (a : Application)
    (pr : ApplicationPriority) :
    getPriority m app url (.error ()) = lowestPriority ∧
    getPriority m app url (.ok []) = lowestPriority ∧
    ((∀ x ∈ l, x.name ≠ app) → getPriority m app url (.ok l) = lowestPriority) ∧
    (l.find? (fun x => x.name == app) = some a → a.priority = none →
      getPriority m app url (.ok l) = lowestPriority) ∧
    (l.find? (fun x => x.name == app) = some a → a.priority = some pr →
      (∀ u ∈ pr.urls, m u.regex url = false) →
      getPriority m app url (.ok l) = pr.value) ∧
    (l.find? (fun x => x.name == app) = some a → a.priority = some pr →
      ∀ i, ∀ hi : i < pr.urls.length,
        (∀ j, ∀ hj : j < i,
          m (pr.urls.get ⟨j, Nat.lt_trans hj hi⟩).regex url = false) →
        m (pr.urls.get ⟨i, hi⟩).regex url = true →
        getPriority m app url (.ok l) = (pr.urls.get ⟨i, hi⟩).value) := by
  refine ⟨rfl, rfl, ?_, ?_, ?_, ?_⟩
  · intro hnone
    have hfind : l.find? (fun x => x.name == app) = none :=
      List.find?_eq_none.mpr (fun x hx => by simpa using hnone x hx)
    rw [getPriority, hfind]
  · intro hfind hpr
    simp only [getPriority, hfind, hpr]
  · intro hfind hpr hnomatch
    have hurls : pr.urls.find? (fun u => m u.regex url) = none :=
      List.find?_eq_none.mpr (fun u hu => by simp [hnomatch u hu])
    simp only [getPriority, hfind, hpr, hurls]
  · intro hfind hpr i hi hbefore hhit
    have hurls := find?_of_first (fun u => m u.regex url) pr.urls i hi hbefore hhit
    simp only [getPriority, hfind, hpr, hurls]

/-- Witness for C6, mirroring the unit test's cases: a failed lookup
resolves to the lowest level, and the application `bak` whose override
`am` matches `example.com` resolves to the override's priority 2 rather
than the default 1. -/
theorem getPriority_resolution_witness :
    getPriority witnessMatch "bak" "example.com" (.error ()) = lowestPriority ∧
    getPriority witnessMatch "bak" "example.com" (.ok priorityApps) = 2 := by
  obtain ⟨h1, _, _, _, _, h6⟩ := getPriority_resolution witnessMatch "bak"
    "example.com" priorityApps priorityApp priorityPr
  refine ⟨h1, ?_⟩
  exact h6 (by decide) rfl 0 (by decide)
    (fun j hj => absurd hj (by omega)) (by decide)

/-- C7: a piece download with `CalcDigest` against a destination serving
exactly the requested bytes with a success status and the correct digest:
the issued request carries the sharded download path and the inclusive
byte-range header, the call returns a stream with no error, and fully
reading the stream yields exactly the served bytes with a clean final
read. -/
theorem downloadPiece_success (server : HTTPRequest → HTTPResponse)
    (r : DownloadPieceRequest) (bytes : List Nat)
    (hs : server (buildPieceRequest r) = ⟨200, bytes⟩)
    (hc : r.calcDigest = true) (hd : r.pieceMd5 = md5Hex bytes) :
    (buildPieceRequest r).path =
      "/download/" ++ r.taskID.take 3 ++ "/" ++ r.taskID ∧
    (buildPieceRequest r).rangeHeader = "bytes=" ++ toString r.rangeStart
      ++ "-" ++ toString (r.rangeStart + r.rangeSize - 1) ∧
    ∃ rd, downloadPiece server r = .ok rd ∧ readAll rd = (bytes, none) := by
  refine ⟨rfl, rfl, ⟨r.pieceMd5, r.calcDigest, [], bytes⟩, ?_, ?_⟩
  · rw [downloadPiece, hs]
    simp
  · rw [readAll]
    simp only [hc]
    rw [readAllAux_eq]
    simp [hd]

set_option maxRecDepth 8000 in
/-- Witness for C7: the scenario of the unit test — range 0–9 of
`task-0`, body `"test test "`, expected digest the MD5 of that body —
succeeds and returns the 10 bytes unmodified. -/
theorem downloadPiece_success_witness :
    ∃ rd, downloadPiece pieceServer pieceReq = .ok rd ∧
      readAll rd = (pieceBody, none) :=
  (downloadPiece_success pieceServer pieceReq pieceBody rfl rfl (by decide)).2.2

/-- C8: a verifying download whose expected digest differs from the digest
of the bytes actually served still hands the caller the full byte stream,
but draining it to completion observes a digest error on the final read;
and in general a clean EOF (the only success signal) is possible only
once the stream is fully consumed with the accumulated digest matching —
a partially consumed or corrupt stream is never reported verified. -/
theorem downloadPiece_digest_mismatch (server : HTTPRequest → HTTPResponse)
    (r : DownloadPieceRequest) (bytes : List Nat) (status : Nat)
    (hs : server (buildPieceRequest r) = ⟨status, bytes⟩)
    (hok : status = 200 ∨ status = 206) (hc : r.calcDigest = true)
    (hd : r.pieceMd5 ≠ md5Hex bytes) :
    (∃ rd, downloadPiece server r = .ok rd ∧
      readAll rd = (bytes, some .mismatch)) ∧
    (∀ rd : DigestReader, readOne rd = .ok none →
      rd.pending = [] ∧ (rd.verify = true → md5Hex rd.consumed = rd.expected)) := by
  constructor
  · refine ⟨⟨r.pieceMd5, r.calcDigest, [], bytes⟩, ?_, ?_⟩
    · rw [downloadPiece, hs]
      rcases hok with rfl | rfl <;> simp
    · rw [readAll]
      simp only [hc]
      rw [readAllAux_eq]
      simp only [List.nil_append, if_true]
      rw [if_neg (fun hh => hd hh.symm)]
  · intro rd hone
    rw [readOne] at hone
    cases hp : rd.pending with
    | cons b rest => rw [hp] at hone; simp at hone
    | nil =>
      rw [hp] at hone
      refine ⟨rfl, fun hv => ?_⟩
      rw [hv, if_pos rfl] at hone
      by_cases hm : md5Hex rd.consumed = rd.expected
      · exact hm
      · rw [if_neg hm] at hone
        simp at hone

set_option maxRecDepth 8000 in
/-- Witness for C8: the same scenario with the expected digest corrupted
to `"bad"` delivers the bytes but errors on the final read. -/
theorem downloadPiece_digest_mismatch_witness :
    ∃ rd, downloadPiece pieceServer corruptReq = .ok rd ∧
      readAll rd = (pieceBody, some .mismatch) :=
  (downloadPiece_digest_mismatch pieceServer corruptReq pieceBody 200 rfl
    (Or.inl rfl) rfl (by decide)).1

end Dragonfly
